import Mathlib

/-!
Verification of the quantsim-bot trading engine (src/lib/engine.ts, current
revision: the one imported by scripts/daemon.ts) against its specification.

Numbers are modelled as rationals: the engine computes with JavaScript
numbers using only addition, subtraction, multiplication, division and
comparisons against decimal literals, all of which are embedded exactly
over the rationals.  Database effects are modelled as explicit state:
the positions table is an association list keyed by symbol, portfolio
rows are a structure, and trade/snapshot inserts are accumulated lists.
-/

namespace QuantSim

/-- Trade action as passed to executeTrade: BUY, SELL or SELL_ALL. -/
inductive TradeAction where
  | buy
  | sell
  | sellAll
deriving DecidableEq, Repr

/-- Result value returned by executeTrade on success. -/
structure TradeResult where
  newCash : ℚ
  newShares : ℚ
  newAvgPrice : ℚ
deriving DecidableEq, Repr

/-- Write performed by executeTrade on the positions table: either the row
for (investor, symbol) is deleted, or it is upserted with the given
shares, avg_price and last_buy_price. -/
inductive PosWrite where
  | delete
  | upsert (shares : ℚ) (avg_price : ℚ) (last_buy_price : ℚ)
deriving DecidableEq, Repr

/-- Embedding of executeTrade from src/lib/engine.ts (lines 53-142).
The investor id, symbol and reason strings do not influence the numeric
outcome and are omitted; the function returns the result object together
with the write performed on the positions row, or none when the trade is
rejected (in which case the source writes no state at all). -/
def executeTrade (action : TradeAction) (amountUSD price currentShares
    currentAvgPrice currentCash : ℚ) : Option (TradeResult × PosWrite) :=
  let safeCash := currentCash
  let safePrice := price
  let core : Option (ℚ × ℚ) :=
    match action with
    | .buy =>
        if safeCash < amountUSD then none
        else some (amountUSD / safePrice, amountUSD / safePrice * safePrice)
    | .sell =>
        some (min (amountUSD / safePrice) currentShares,
          min (amountUSD / safePrice) currentShares * safePrice)
    | .sellAll =>
        some (currentShares, currentShares * safePrice)
  match core with
  | none => none
  | some (tradeShares, tradeAmount) =>
    if tradeAmount < 1 then none
    else
      let newCash :=
        if action = .buy then safeCash - tradeAmount else safeCash + tradeAmount
      let newShares :=
        if action = .buy then currentShares + tradeShares
        else currentShares - tradeShares
      let avgAfterBuy :=
        if action = .buy then
          if 0 < newShares then
            (currentShares * currentAvgPrice + tradeAmount) / newShares
          else 0
        else currentAvgPrice
      let newAvgPrice := if newShares ≤ 1 / 10000 then 0 else avgAfterBuy
      let write :=
        if newShares = 0 then PosWrite.delete
        else PosWrite.upsert newShares newAvgPrice safePrice
      some (⟨newCash, newShares, newAvgPrice⟩, write)

/-- Quote for one instrument as parsed by getMarketPrices; the parser only
stores entries with a positive price. The open field is never read by the
engine and is omitted. -/
structure MarketData where
  price : ℚ
  changePercent : ℚ
deriving DecidableEq, Repr

/-- Market data for the cycle: the object built by getMarketPrices, as an
association list from symbol to quote. -/
abbrev Quotes := List (String × MarketData)

/-- Lookup of marketData brackets symbol. -/
def qlookup (quotes : Quotes) (sym : String) : Option MarketData :=
  (quotes.find? (fun e => e.1 = sym)).map (fun e => e.2)

/-- In-memory position as kept in posMap by runTradingBot (engine.ts lines
10-16 and 171-181); updated_at is modelled as an abstract natural-number
timestamp. -/
structure Position where
  symbol : String
  shares : ℚ
  last_buy_price : ℚ
  avg_price : ℚ
  updated_at : ℕ
deriving DecidableEq, Repr

/-- Lookup posMap.get brackets symbol on the association list of positions. -/
def findPos (ps : List Position) (sym : String) : Option Position :=
  ps.find? (fun p => p.symbol = sym)

/-- Map.set semantics on the position list: replace the entry with the same
symbol if present, otherwise append. -/
def setPos (ps : List Position) (p : Position) : List Position :=
  if ps.any (fun q => q.symbol = p.symbol) then
    ps.map (fun q => if q.symbol = p.symbol then p else q)
  else ps ++ [p]

/-- Map.delete semantics on the position list. -/
def delPos (ps : List Position) (sym : String) : List Position :=
  ps.filter (fun p => ¬ p.symbol = sym)

/-- Mark price used when the engine values a position (settlement lines
328-333 and the pre-trade valuation lines 183-188): the JavaScript
expression marketData at the symbol, question-dot price, double-pipe
last_buy_price. A quote whose price is 0 would be falsy and also fall back;
the parser never stores such a quote. -/
def markPrice (quotes : Quotes) (p : Position) : ℚ :=
  match qlookup quotes p.symbol with
  | some md => if md.price = 0 then p.last_buy_price else md.price
  | none => p.last_buy_price

/-- Mark price as worded by the specification: the current cycle quote for
the instrument, falling back to the position own last trade price for
instruments with no quote this cycle. Kept separate from markPrice (the
code reading) so the two can be compared. -/
def specMarkPrice (quotes : Quotes) (p : Position) : ℚ :=
  match qlookup quotes p.symbol with
  | some md => md.price
  | none => p.last_buy_price

/-- Mark-to-market value of all positions in posMap under the given quotes. -/
def marketValue (quotes : Quotes) (ps : List Position) : ℚ :=
  (ps.map (fun p => p.shares * markPrice quotes p)).sum

/-- Trade request produced by the persona switch: the action and the
amountUSD argument passed to executeTrade. -/
structure TradeReq where
  action : TradeAction
  amountUSD : ℚ
deriving DecidableEq, Repr

/-- Decision function abstracting the per-persona switch in runTradingBot
(engine.ts lines 214-305): given the quote price, changePercent, the
current in-memory position for the symbol (if any), the running cash and
the cycle drawdown, either call executeTrade with a request or do nothing.
Quantifying over this function covers every persona branch, including the
randomized zen persona for any outcome of its random draw. -/
abbrev Decide := ℚ → ℚ → Option Position → ℚ → ℚ → Option TradeReq

/-- Executed-trade log entry (the trades insert): symbol and action. -/
structure TradeLog where
  symbol : String
  action : TradeAction
deriving DecidableEq, Repr

/-- Running state of the per-investor trade loop: the in-memory cash, the
in-memory posMap, the appended trade rows and the position-row writes
performed so far this cycle. -/
structure LoopState where
  cash : ℚ
  posMap : List Position
  trades : List TradeLog
  writes : List (String × PosWrite)
deriving Repr

/-- Share count read from an optional position (engine.ts line 204). -/
def posShares (pos : Option Position) : ℚ :=
  match pos with | some p => p.shares | none => 0

/-- Average price read from an optional position (engine.ts line 205). -/
def posAvg (pos : Option Position) : ℚ :=
  match pos with | some p => p.avg_price | none => 0

/-- Last buy price read from an optional position (engine.ts line 206). -/
def posLast (pos : Option Position) : ℚ :=
  match pos with | some p => p.last_buy_price | none => 0

/-- One iteration of the symbol loop of runTradingBot (engine.ts lines
198-326): skip symbols without a quote, run the persona decision, call
executeTrade, and on success update the in-memory cash and posMap (lines
308-325: the posMap entry is replaced when newShares is positive — taking
the trade price as last_buy_price exactly when the share count grew,
keeping the previous one otherwise — and deleted when newShares is not
positive). -/
def stepSymbol (decide : Decide) (dd : ℚ) (now : ℕ) (quotes : Quotes)
    (st : LoopState) (symbol : String) : LoopState :=
  match qlookup quotes symbol with
  | none => st
  | some data =>
    match decide data.price data.changePercent (findPos st.posMap symbol)
        st.cash dd with
    | none => st
    | some req =>
      match executeTrade req.action req.amountUSD data.price
          (posShares (findPos st.posMap symbol))
          (posAvg (findPos st.posMap symbol)) st.cash with
      | none => st
      | some (r, w) =>
        ⟨r.newCash,
          if 0 < r.newShares then
            setPos st.posMap
              ⟨symbol, r.newShares,
                if posShares (findPos st.posMap symbol) < r.newShares then
                  data.price
                else posLast (findPos st.posMap symbol),
                r.newAvgPrice, now⟩
          else delPos st.posMap symbol,
          st.trades ++ [⟨symbol, req.action⟩],
          st.writes ++ [(symbol, w)]⟩

/-- The whole symbol loop over CONFIG.SYMBOLS. -/
def runSymbols (decide : Decide) (dd : ℚ) (now : ℕ) (quotes : Quotes)
    (symbols : List String) (st : LoopState) : LoopState :=
  symbols.foldl (stepSymbol decide dd now quotes) st

/-- Portfolio row for one investor. -/
structure Portfolio where
  cash_balance : ℚ
  total_equity : ℚ
  peak_equity : ℚ
deriving DecidableEq, Repr

/-- Equity snapshot row appended at settlement. -/
structure Snapshot where
  total_equity : ℚ
  cash_balance : ℚ
deriving DecidableEq, Repr

/-- Peak equity loaded at the start of a cycle: the JavaScript expression
Number of portfolio.peak_equity double-pipe portfolio.total_equity
(engine.ts line 170); a zero peak_equity is falsy and falls back. -/
def loadedPeak (pf : Portfolio) : ℚ :=
  if pf.peak_equity = 0 then pf.total_equity else pf.peak_equity

/-- Pre-trade total equity computed from the freshly loaded positions
(engine.ts lines 183-189). -/
def preEquity (quotes : Quotes) (pf : Portfolio) (ps : List Position) : ℚ :=
  pf.cash_balance + marketValue quotes ps

/-- Peak equity after the start-of-cycle update (engine.ts lines 191-194). -/
def cyclePeak (quotes : Quotes) (pf : Portfolio) (ps : List Position) : ℚ :=
  if loadedPeak pf < preEquity quotes pf ps then preEquity quotes pf ps
  else loadedPeak pf

/-- Drawdown fraction computed for the cycle (engine.ts line 195). -/
def cycleDrawdown (quotes : Quotes) (pf : Portfolio) (ps : List Position) : ℚ :=
  if 0 < cyclePeak quotes pf ps then
    (cyclePeak quotes pf ps - preEquity quotes pf ps) / cyclePeak quotes pf ps
  else 0

/-- Peak equity as persisted in the portfolio row after the cycle: the
update at engine.ts lines 191-194 writes peak_equity to the store only
when the pre-trade equity exceeds the loaded peak, and the settlement
update (lines 338-342) writes only cash_balance and total_equity, so in
the other case the stored value stays whatever peak_equity the row held
before the cycle — not the loadedPeak fallback, which is in-memory only. -/
def persistedPeak (quotes : Quotes) (pf : Portfolio) (ps : List Position) : ℚ :=
  if loadedPeak pf < preEquity quotes pf ps then preEquity quotes pf ps
  else pf.peak_equity

/-- Output of one investor cycle: the persisted portfolio row, the final
in-memory positions, the trade log and the appended equity snapshot. -/
structure CycleOut where
  portfolio : Portfolio
  positions : List Position
  trades : List TradeLog
  snapshot : Snapshot
deriving Repr

/-- One full investor pass of runTradingBot (engine.ts lines 148-353):
load state, update peak equity (persisted only when it grew, see
persistedPeak), compute drawdown from the in-memory peak, run the symbol
loop, then settle (lines 328-353): finalTotalEquity is the final cash plus
the mark-to-market value of the final posMap, the portfolio row is updated
with the final cash and equity (the settlement update does not touch
peak_equity), and one equity snapshot is appended. -/
def runInvestorCycle (decide : Decide) (now : ℕ) (quotes : Quotes)
    (symbols : List String) (pf : Portfolio) (ps : List Position) : CycleOut :=
  let dd := cycleDrawdown quotes pf ps
  let st := runSymbols decide dd now quotes symbols
    ⟨pf.cash_balance, ps, [], []⟩
  let finalTotalEquity := st.cash + marketValue quotes st.posMap
  { portfolio := ⟨st.cash, finalTotalEquity, persistedPeak quotes pf ps⟩
    positions := st.posMap
    trades := st.trades
    snapshot := ⟨finalTotalEquity, st.cash⟩ }

/-- One investor entry for the top-level loop: id, decision function and
persisted state. -/
structure Investor where
  id : String
  decide : Decide
  portfolio : Portfolio
  positions : List Position

/-- Top-level runTradingBot (engine.ts lines 144-355): fetch quotes, abort
the whole cycle when no quote parsed, otherwise run every investor cycle in
order and collect the persisted portfolio rows and appended snapshots. -/
def runTradingBot (now : ℕ) (quotes : Quotes) (symbols : List String)
    (investors : List Investor) : List (String × Portfolio × Snapshot) :=
  if quotes = [] then []
  else investors.map (fun inv =>
    let out := runInvestorCycle inv.decide now quotes symbols inv.portfolio
      inv.positions
    (inv.id, out.portfolio, out.snapshot))

/-- The soldier persona branch of the switch (engine.ts lines 215-231),
as a Decide function: under a drawdown above 10 percent only the tactical
retreat SELL can fire; otherwise entry BUY, dip BUY or retreat SELL. -/
def soldierDecide : Decide := fun price _changePercent pos cash dd =>
  let shares := match pos with | some p => p.shares | none => 0
  let lastPrice := match pos with | some p => p.last_buy_price | none => 0
  let hasPos := 0 < shares
  if 1 / 10 < dd then
    if hasPos ∧ lastPrice * (102 / 100) < price then
      some ⟨.sell, shares * price * (2 / 10)⟩
    else none
  else
    if ¬ hasPos ∧ 100000 ≤ cash then some ⟨.buy, 100000⟩
    else if hasPos then
      if price < lastPrice * (98 / 100) ∧ 10000 ≤ cash then
        some ⟨.buy, 10000⟩
      else if lastPrice * (102 / 100) < price then
        some ⟨.sell, shares * price * (2 / 10)⟩
      else none
    else none

/-! The daily-throttle mechanism lives in the STRATEGIES-based revision of
the engine (the runTradingBot revision in src/lib/market-service.ts that
imports STRATEGIES, together with src/lib/strategies.ts and src/lib/type.ts):
each strategy receives isTradedToday, computed from the updated_at of the
position row, and must return HOLD when it is true. The embedding below
models that revision for one (investor, instrument) pair; calendar days are
natural numbers, and toDateString equality becomes equality of day numbers. -/

namespace StratEngine

/-- Position row of the STRATEGIES-based revision (type.ts). -/
structure PositionS where
  shares : ℚ
  avg_price : ℚ
  last_buy_price : ℚ
  last_action_price : ℚ
  updated_at : ℕ
deriving DecidableEq, Repr

/-- Action of a TradeDecision. -/
inductive DAction where
  | buy
  | sell
  | hold
deriving DecidableEq, Repr

/-- TradeDecision returned by a strategy (type.ts): optional amountUSD and
optional share count. -/
structure TradeDecision where
  action : DAction
  amountUSD : Option ℚ
  shares : Option ℚ
deriving DecidableEq, Repr

/-- Embedding of leekStrategy (strategies.ts lines 5-18): HOLD when
isTradedToday; entry BUY of 100000 when flat and funded; otherwise chase a
rise above 2 percent with 50000 or dump the whole position below minus 5
percent. -/
def leekStrategy (position : Option PositionS) (cash : ℚ)
    (isTradedToday : Bool) (changePercent : ℚ) : TradeDecision :=
  if isTradedToday then ⟨.hold, none, none⟩
  else
    match position with
    | none =>
      if 100000 ≤ cash then ⟨.buy, some 100000, none⟩ else ⟨.hold, none, none⟩
    | some p =>
      if 2 / 100 < changePercent ∧ 50000 ≤ cash then ⟨.buy, some 50000, none⟩
      else if changePercent < -(5 / 100) then ⟨.sell, none, some p.shares⟩
      else ⟨.hold, none, none⟩

/-- Embedding of executeUpdate (the STRATEGIES-based runTradingBot, helper 3):
reads the current position row, applies the share delta with weighted-average
cost on a buy, and deletes the row when the new share count is at most 0.01;
otherwise upserts it with updated_at set to today. The JavaScript fallback
currentPos question-dot last_buy_price double-pipe price is modelled with a
zero test. -/
def executeUpdate (isBuy : Bool) (sharesDelta price amountUSD : ℚ)
    (currentPos : Option PositionS) (today : ℕ) : Option PositionS :=
  let oldShares := match currentPos with | some p => p.shares | none => 0
  let oldAvg := match currentPos with | some p => p.avg_price | none => 0
  let oldCost := oldShares * oldAvg
  let newShares := if isBuy then oldShares + sharesDelta
    else oldShares - sharesDelta
  let newAvgPrice :=
    if isBuy then (if 0 < newShares then (oldCost + amountUSD) / newShares
      else price)
    else oldAvg
  if newShares ≤ 1 / 100 then none
  else
    some
      { shares := newShares
        avg_price := newAvgPrice
        last_buy_price :=
          if isBuy then price
          else
            match currentPos with
            | some p => if p.last_buy_price = 0 then price else p.last_buy_price
            | none => price
        last_action_price := price
        updated_at := today }

/-- State of one (investor, instrument) pair across cycles of the
STRATEGIES-based engine: the in-memory cash, the position row, and the list
of days on which a trade for the pair actually executed. -/
structure SState where
  cash : ℚ
  pos : Option PositionS
  execDays : List ℕ
deriving DecidableEq, Repr

/-- One cycle of the STRATEGIES-based engine for one (investor, instrument)
pair running leekStrategy: isTradedToday is true exactly when a position row
exists whose updated_at is today; a BUY decision executes when amountUSD is
truthy and covered by cash; a SELL decision converts the requested share
count (falling back to amountUSD over price) into a count capped at the held
quantity and executes when positive. -/
def leekStep (today : ℕ) (price changePercent : ℚ) (st : SState) : SState :=
  let isTradedToday :=
    match st.pos with | some p => p.updated_at = today | none => false
  let d := leekStrategy st.pos st.cash isTradedToday changePercent
  match d.action with
  | .hold => st
  | .buy =>
    match d.amountUSD with
    | none => st
    | some a =>
      if a = 0 then st
      else if a ≤ st.cash then
        ⟨st.cash - a, executeUpdate true (a / price) price a st.pos today,
          st.execDays ++ [today]⟩
      else st
  | .sell =>
    match st.pos with
    | none => st
    | some p =>
      let raw := match d.shares with | some s => s | none => 0
      let raw2 :=
        if raw = 0 then
          match d.amountUSD with
          | some a => if a = 0 then 0 else a / price
          | none => 0
        else raw
      let sharesToSell := min raw2 p.shares
      if 0 < sharesToSell then
        ⟨st.cash + sharesToSell * price,
          executeUpdate false sharesToSell price (sharesToSell * price)
            (some p) today,
          st.execDays ++ [today]⟩
      else st

end StratEngine

/-- Well-formedness of the quote map: getMarketPrices only stores quotes
whose parsed price is positive (engine.ts line 38). -/
abbrev QuotesOk (quotes : Quotes) : Prop := ∀ e ∈ quotes, 0 < e.2.price

/-- Well-formedness of the position list: nonnegative share and reference
prices, and at most one row per symbol (the positions table is keyed by
investor and symbol). -/
abbrev PosOk (ps : List Position) : Prop :=
  (∀ p ∈ ps, 0 ≤ p.shares ∧ 0 ≤ p.last_buy_price) ∧
    (ps.map (fun p => p.symbol)).Nodup

/-- Well-formedness of a portfolio row. -/
abbrev PortfolioOk (pf : Portfolio) : Prop :=
  0 ≤ pf.cash_balance ∧ 0 ≤ pf.total_equity ∧ 0 ≤ pf.peak_equity

/-- Input of one cycle in a multi-cycle run: the decision function (which
may differ per cycle, covering randomized personas), the timestamp and the
quote batch of that cycle. -/
structure CycleIn where
  decide : Decide
  now : ℕ
  quotes : Quotes

/-- A sequence of investor cycles: each cycle starts from the portfolio row
and positions persisted by the previous one, exactly as consecutive runs of
runTradingBot reload the rows they last wrote. -/
def runCycles (symbols : List String) (steps : List CycleIn)
    (s : Portfolio × List Position) : Portfolio × List Position :=
  steps.foldl
    (fun s c =>
      let out := runInvestorCycle c.decide c.now c.quotes symbols s.1 s.2
      (out.portfolio, out.positions))
    s

/-! Helper lemmas about executeTrade. -/

lemma exec_buy_rejected (amt price s a cash : ℚ) (h : cash < amt) :
    executeTrade .buy amt price s a cash = none := by
  simp [executeTrade, h]

lemma exec_buy_guard {amt price s a cash : ℚ} {r : TradeResult} {w : PosWrite}
    (h : executeTrade .buy amt price s a cash = some (r, w)) : amt ≤ cash := by
  by_contra hc
  rw [exec_buy_rejected amt price s a cash (lt_of_not_le hc)] at h
  exact Option.noConfusion h

lemma exec_buy_eq {amt price s a cash : ℚ} {r : TradeResult} {w : PosWrite}
    (hp : price ≠ 0)
    (h : executeTrade .buy amt price s a cash = some (r, w)) :
    1 ≤ amt ∧ amt ≤ cash ∧ r.newCash = cash - amt ∧
      r.newShares = s + amt / price ∧
      r.newAvgPrice = (if s + amt / price ≤ 1 / 10000 then 0
        else if 0 < s + amt / price then (s * a + amt) / (s + amt / price)
        else 0) ∧
      w = (if s + amt / price = 0 then PosWrite.delete
        else PosWrite.upsert (s + amt / price)
          (if s + amt / price ≤ 1 / 10000 then 0
            else if 0 < s + amt / price then (s * a + amt) / (s + amt / price)
            else 0) price) := by
  have hg : ¬ cash < amt := not_lt_of_le (exec_buy_guard h)
  have hta : amt / price * price = amt := div_mul_cancel₀ amt hp
  simp only [executeTrade, hg, if_false, hta, reduceIte] at h
  by_cases hlt : amt < 1
  · simp [hlt] at h
  · simp only [hlt, if_false] at h
    obtain ⟨h1, h2⟩ := Prod.mk.injEq .. ▸ Option.some.inj h
    subst h1 h2
    exact ⟨le_of_not_lt hlt, le_of_not_lt hg, rfl, rfl, rfl, rfl⟩

lemma exec_sell_eq {amt price s a cash : ℚ} {r : TradeResult} {w : PosWrite}
    (h : executeTrade .sell amt price s a cash = some (r, w)) :
    1 ≤ min (amt / price) s * price ∧
      r.newCash = cash + min (amt / price) s * price ∧
      r.newShares = s - min (amt / price) s ∧
      r.newAvgPrice = (if s - min (amt / price) s ≤ 1 / 10000 then 0 else a) ∧
      w = (if s - min (amt / price) s = 0 then PosWrite.delete
        else PosWrite.upsert (s - min (amt / price) s)
          (if s - min (amt / price) s ≤ 1 / 10000 then 0 else a) price) := by
  simp only [executeTrade, reduceIte] at h
  by_cases hlt : min (amt / price) s * price < 1
  · simp [hlt] at h
  · simp only [hlt, if_false] at h
    obtain ⟨h1, h2⟩ := Prod.mk.injEq .. ▸ Option.some.inj h
    subst h1 h2
    exact ⟨le_of_not_lt hlt, rfl, rfl, rfl, rfl⟩

lemma exec_sellAll_eq {amt price s a cash : ℚ} {r : TradeResult} {w : PosWrite}
    (h : executeTrade .sellAll amt price s a cash = some (r, w)) :
    1 ≤ s * price ∧ r.newCash = cash + s * price ∧ r.newShares = 0 ∧
      w = PosWrite.delete := by
  simp only [executeTrade, reduceIte] at h
  by_cases hlt : s * price < 1
  · simp [hlt] at h
  · simp only [hlt, if_false, sub_self] at h
    obtain ⟨h1, h2⟩ := Prod.mk.injEq .. ▸ Option.some.inj h
    subst h1 h2
    simp only [le_refl, reduceIte]
    exact ⟨le_of_not_lt hlt, rfl, rfl, rfl⟩

lemma exec_cash_nonneg {act : TradeAction} {amt price s a cash : ℚ}
    {r : TradeResult} {w : PosWrite} (hp : 0 < price) (hc : 0 ≤ cash)
    (h : executeTrade act amt price s a cash = some (r, w)) : 0 ≤ r.newCash := by
  cases act with
  | buy =>
    obtain ⟨-, hle, hcash, -⟩ := exec_buy_eq (ne_of_gt hp) h
    rw [hcash]
    exact sub_nonneg.mpr hle
  | sell =>
    obtain ⟨h1, hcash, -⟩ := exec_sell_eq h
    rw [hcash]
    have : (0 : ℚ) ≤ min (amt / price) s * price :=
      le_trans zero_le_one h1
    linarith
  | sellAll =>
    obtain ⟨h1, hcash, -⟩ := exec_sellAll_eq h
    rw [hcash]
    have : (0 : ℚ) ≤ s * price := le_trans zero_le_one h1
    linarith

lemma exec_conserve {act : TradeAction} {amt price s a cash : ℚ}
    {r : TradeResult} {w : PosWrite} (hp : price ≠ 0)
    (h : executeTrade act amt price s a cash = some (r, w)) :
    r.newCash + r.newShares * price = cash + s * price := by
  cases act with
  | buy =>
    obtain ⟨-, -, hcash, hshares, -⟩ := exec_buy_eq hp h
    rw [hcash, hshares]
    have : amt / price * price = amt := div_mul_cancel₀ amt hp
    ring_nf
    ring_nf at this
    linarith
  | sell =>
    obtain ⟨-, hcash, hshares, -⟩ := exec_sell_eq h
    rw [hcash, hshares]
    ring
  | sellAll =>
    obtain ⟨-, hcash, hshares, -⟩ := exec_sellAll_eq h
    rw [hcash, hshares]
    ring

lemma exec_buy_shares_pos {amt price s a cash : ℚ}
    {r : TradeResult} {w : PosWrite} (hp : 0 < price) (hs : 0 ≤ s)
    (h : executeTrade .buy amt price s a cash = some (r, w)) :
    0 < r.newShares := by
  obtain ⟨h1, -, -, hshares, -⟩ := exec_buy_eq (ne_of_gt hp) h
  rw [hshares]
  have : 0 < amt / price := div_pos (lt_of_lt_of_le one_pos h1) hp
  linarith

lemma exec_sell_shares_nonneg {amt price s a cash : ℚ}
    {r : TradeResult} {w : PosWrite}
    (h : executeTrade .sell amt price s a cash = some (r, w)) :
    0 ≤ r.newShares := by
  obtain ⟨-, -, hshares, -⟩ := exec_sell_eq h
  rw [hshares]
  exact sub_nonneg.mpr (min_le_right _ _)

lemma exec_sell_zero_held (amt price a cash : ℚ) (hp : 0 < price) :
    executeTrade .sell amt price 0 a cash = none := by
  have hts : min (amt / price) 0 ≤ 0 := min_le_right _ _
  have hta : min (amt / price) 0 * price ≤ 0 :=
    mul_nonpos_iff.mpr (Or.inr ⟨hts, le_of_lt hp⟩)
  simp only [executeTrade, reduceIte]
  rw [if_pos (lt_of_le_of_lt hta one_pos)]

lemma exec_sellAll_zero_held (amt price a cash : ℚ) :
    executeTrade .sellAll amt price 0 a cash = none := by
  simp [executeTrade]

lemma exec_write_upsert {act : TradeAction} {amt price s a cash : ℚ}
    {r : TradeResult} {w : PosWrite}
    (h : executeTrade act amt price s a cash = some (r, w))
    (hne : r.newShares ≠ 0) :
    w = PosWrite.upsert r.newShares r.newAvgPrice price := by
  cases act with
  | buy =>
    by_cases hp : price = 0
    · exfalso
      simp only [executeTrade, hp, reduceIte, mul_zero, div_zero] at h
      by_cases hg : cash < amt
      · simp [hg] at h
      · simp [hg, zero_lt_one] at h
    · obtain ⟨-, -, -, hshares, havg, hw⟩ := exec_buy_eq hp h
      rw [hw, if_neg (hshares ▸ hne), havg, hshares]
  | sell =>
    obtain ⟨-, -, hshares, havg, hw⟩ := exec_sell_eq h
    rw [hw, if_neg (hshares ▸ hne), havg, hshares]
  | sellAll =>
    obtain ⟨-, -, hshares, -⟩ := exec_sellAll_eq h
    exact absurd hshares hne

lemma exec_delete_iff {act : TradeAction} {amt price s a cash : ℚ}
    {r : TradeResult} {w : PosWrite}
    (h : executeTrade act amt price s a cash = some (r, w)) :
    w = PosWrite.delete ↔ r.newShares = 0 := by
  constructor
  · intro hw
    by_contra hne
    rw [exec_write_upsert h hne] at hw
    exact PosWrite.noConfusion hw
  · intro h0
    cases act with
    | buy =>
      by_cases hp : price = 0
      · exfalso
        simp only [executeTrade, hp, reduceIte, mul_zero, div_zero] at h
        by_cases hg : cash < amt
        · simp [hg] at h
        · simp [hg, zero_lt_one] at h
      · obtain ⟨-, -, -, hshares, -, hw⟩ := exec_buy_eq hp h
        rw [hw, if_pos (hshares ▸ h0)]
    | sell =>
      obtain ⟨-, -, hshares, -, hw⟩ := exec_sell_eq h
      rw [hw, if_pos (hshares ▸ h0)]
    | sellAll =>
      obtain ⟨-, -, -, hw⟩ := exec_sellAll_eq h
      exact hw

lemma exec_avg_buy {amt price s a cash : ℚ}
    {r : TradeResult} {w : PosWrite} (hp : price ≠ 0)
    (h : executeTrade .buy amt price s a cash = some (r, w))
    (hbig : 1 / 10000 < r.newShares) :
    r.newAvgPrice = (s * a + amt) / r.newShares := by
  obtain ⟨-, -, -, hshares, havg, -⟩ := exec_buy_eq hp h
  rw [havg, if_neg (not_le_of_lt (hshares ▸ hbig)),
    if_pos (lt_trans (by norm_num) (hshares ▸ hbig)), hshares]

lemma exec_avg_sell {amt price s a cash : ℚ}
    {r : TradeResult} {w : PosWrite}
    (h : executeTrade .sell amt price s a cash = some (r, w))
    (hbig : 1 / 10000 < r.newShares) :
    r.newAvgPrice = a := by
  obtain ⟨-, -, hshares, havg, -⟩ := exec_sell_eq h
  rw [havg, if_neg (not_le_of_lt (hshares ▸ hbig))]

/-! Helper lemmas about the posMap association list and mark prices. -/

lemma findPos_symbol {ps : List Position} {sym : String} {p : Position}
    (h : findPos ps sym = some p) : p.symbol = sym := by
  have := List.find?_some h
  simpa using this

lemma findPos_mem {ps : List Position} {sym : String} {p : Position}
    (h : findPos ps sym = some p) : p ∈ ps :=
  List.mem_of_find?_eq_some h

lemma findPos_none {ps : List Position} {sym : String}
    (h : findPos ps sym = none) : ∀ p ∈ ps, p.symbol ≠ sym := by
  intro p hp
  have := List.find?_eq_none.mp h p hp
  simpa using this

lemma any_eq_isSome_findPos (ps : List Position) (sym : String) :
    (ps.any (fun q => q.symbol = sym)) = (findPos ps sym).isSome := by
  induction ps with
  | nil => rfl
  | cons hd tl ih =>
    unfold findPos
    simp only [List.any_cons]
    by_cases h : hd.symbol = sym
    · rw [List.find?_cons_of_pos _ (by simpa using h)]
      simp [h]
    · rw [List.find?_cons_of_neg _ (by simpa using h)]
      simp only [decide_eq_false h, Bool.false_or]
      exact ih

lemma setPos_of_found {ps : List Position} {p : Position}
    (h : findPos ps p.symbol = some q) :
    setPos ps p = ps.map (fun t => if t.symbol = p.symbol then p else t) := by
  unfold setPos
  rw [if_pos]
  rw [any_eq_isSome_findPos, h]
  rfl

lemma setPos_of_notfound {ps : List Position} {p : Position}
    (h : findPos ps p.symbol = none) :
    setPos ps p = ps ++ [p] := by
  unfold setPos
  rw [if_neg]
  rw [any_eq_isSome_findPos, h]
  simp

lemma mem_setPos {ps : List Position} {p t : Position}
    (h : t ∈ setPos ps p) : t = p ∨ t ∈ ps := by
  unfold setPos at h
  by_cases hc : ps.any (fun q => q.symbol = p.symbol)
  · rw [if_pos hc] at h
    obtain ⟨u, hu, heq⟩ := List.mem_map.mp h
    by_cases hsym : u.symbol = p.symbol
    · left
      rw [if_pos hsym] at heq
      exact heq.symm
    · right
      rw [if_neg hsym] at heq
      exact heq ▸ hu
  · rw [if_neg hc] at h
    rcases List.mem_append.mp h with hmem | hmem
    · exact Or.inr hmem
    · exact Or.inl (List.mem_singleton.mp hmem)

lemma setPos_symbols_found {ps : List Position} {p : Position} {q : Position}
    (h : findPos ps p.symbol = some q) :
    (setPos ps p).map (fun t => t.symbol) = ps.map (fun t => t.symbol) := by
  rw [setPos_of_found h, List.map_map]
  apply List.map_congr_left
  intro t _
  by_cases hsym : t.symbol = p.symbol
  · simp [hsym]
  · simp [hsym]

lemma setPos_symbols_notfound {ps : List Position} {p : Position}
    (h : findPos ps p.symbol = none) :
    (setPos ps p).map (fun t => t.symbol) =
      ps.map (fun t => t.symbol) ++ [p.symbol] := by
  rw [setPos_of_notfound h, List.map_append]
  rfl

lemma setPos_nodup {ps : List Position} {p : Position}
    (hnd : (ps.map (fun t => t.symbol)).Nodup) :
    ((setPos ps p).map (fun t => t.symbol)).Nodup := by
  cases hf : findPos ps p.symbol with
  | some q => rw [setPos_symbols_found hf]; exact hnd
  | none =>
    rw [setPos_symbols_notfound hf]
    rw [List.nodup_append]
    refine ⟨hnd, List.nodup_singleton _, ?_⟩
    intro x hx hx1
    obtain ⟨u, hu, hequ⟩ := List.mem_map.mp hx
    rw [List.mem_singleton] at hx1
    exact findPos_none hf u hu (hequ.trans hx1)

lemma mem_delPos {ps : List Position} {sym : String} {t : Position}
    (h : t ∈ delPos ps sym) : t ∈ ps :=
  List.mem_of_mem_filter h

lemma delPos_nodup {ps : List Position} {sym : String}
    (hnd : (ps.map (fun t => t.symbol)).Nodup) :
    ((delPos ps sym).map (fun t => t.symbol)).Nodup :=
  ((List.filter_sublist ps).map (fun t => t.symbol)).nodup hnd

lemma sum_setPos_found {ps : List Position} {p q : Position}
    (hnd : (ps.map (fun t => t.symbol)).Nodup)
    (hf : findPos ps p.symbol = some q) (f : Position → ℚ) :
    ((setPos ps p).map f).sum = (ps.map f).sum - f q + f p := by
  rw [setPos_of_found hf]
  induction ps with
  | nil => exact absurd hf (by simp [findPos])
  | cons hd tl ih =>
    simp only [List.map_cons, List.nodup_cons] at hnd
    unfold findPos at hf
    by_cases hh : hd.symbol = p.symbol
    · rw [List.find?_cons_of_pos _ (by simpa using hh)] at hf
      have hq : q = hd := (Option.some.inj hf).symm
      subst hq
      simp only [List.map_cons, if_pos hh, List.sum_cons]
      have htl : tl.map (fun t => if t.symbol = p.symbol then p else t)
          = tl.map id := by
        apply List.map_congr_left
        intro t ht
        rw [if_neg, id]
        intro hts
        apply hnd.1
        rw [hh, ← hts]
        exact List.mem_map_of_mem (fun t => t.symbol) ht
      rw [htl, List.map_id]
      ring
    · rw [List.find?_cons_of_neg _ (by simpa using hh)] at hf
      simp only [List.map_cons, if_neg hh, List.sum_cons]
      rw [ih hnd.2 hf]
      ring

lemma sum_setPos_notfound {ps : List Position} {p : Position}
    (hf : findPos ps p.symbol = none) (f : Position → ℚ) :
    ((setPos ps p).map f).sum = (ps.map f).sum + f p := by
  rw [setPos_of_notfound hf, List.map_append, List.sum_append]
  simp

lemma delPos_of_notfound {ps : List Position} {sym : String}
    (hf : findPos ps sym = none) : delPos ps sym = ps := by
  unfold delPos
  apply List.filter_eq_self.mpr
  intro t ht
  simpa using findPos_none hf t ht

lemma sum_delPos_found {ps : List Position} {sym : String} {q : Position}
    (hnd : (ps.map (fun t => t.symbol)).Nodup)
    (hf : findPos ps sym = some q) (f : Position → ℚ) :
    ((delPos ps sym).map f).sum = (ps.map f).sum - f q := by
  induction ps with
  | nil => exact absurd hf (by simp [findPos])
  | cons hd tl ih =>
    simp only [List.map_cons, List.nodup_cons] at hnd
    unfold findPos at hf
    unfold delPos
    by_cases hh : hd.symbol = sym
    · rw [List.find?_cons_of_pos _ (by simpa using hh)] at hf
      have hq : q = hd := (Option.some.inj hf).symm
      subst hq
      rw [List.filter_cons_of_neg (by simpa using hh)]
      have htl : tl.filter (fun t => ¬ t.symbol = sym) = tl := by
        apply List.filter_eq_self.mpr
        intro t ht
        simp only [decide_eq_true_eq]
        intro hts
        apply hnd.1
        rw [hh, ← hts]
        exact List.mem_map_of_mem (fun t => t.symbol) ht
      rw [htl]
      simp only [List.map_cons, List.sum_cons]
      ring
    · rw [List.find?_cons_of_neg _ (by simpa using hh)] at hf
      rw [List.filter_cons_of_pos (by simpa using hh)]
      have := ih hnd.2 hf
      unfold delPos at this
      simp only [List.map_cons, List.sum_cons, this]
      ring

lemma qlookup_pos {quotes : Quotes} {sym : String} {md : MarketData}
    (hq : QuotesOk quotes) (h : qlookup quotes sym = some md) : 0 < md.price := by
  unfold qlookup at h
  obtain ⟨e, he, hemd⟩ := Option.map_eq_some'.mp h
  exact hemd ▸ hq e (List.mem_of_find?_eq_some he)

lemma markPrice_some {quotes : Quotes} {p : Position} {md : MarketData}
    (h : qlookup quotes p.symbol = some md) :
    markPrice quotes p = if md.price = 0 then p.last_buy_price else md.price := by
  unfold markPrice
  rw [h]

lemma markPrice_none {quotes : Quotes} {p : Position}
    (h : qlookup quotes p.symbol = none) :
    markPrice quotes p = p.last_buy_price := by
  unfold markPrice
  rw [h]

lemma markPrice_of_quote {quotes : Quotes} {p : Position} {md : MarketData}
    (h : qlookup quotes p.symbol = some md) (hne : md.price ≠ 0) :
    markPrice quotes p = md.price := by
  rw [markPrice_some h]
  exact if_neg hne

lemma markPrice_eq_spec {quotes : Quotes} (hq : QuotesOk quotes)
    (p : Position) : markPrice quotes p = specMarkPrice quotes p := by
  unfold specMarkPrice
  cases hqq : qlookup quotes p.symbol with
  | none => exact markPrice_none hqq
  | some md => exact markPrice_of_quote hqq (ne_of_gt (qlookup_pos hq hqq))

lemma markPrice_nonneg {quotes : Quotes} {p : Position} (hq : QuotesOk quotes)
    (hlb : 0 ≤ p.last_buy_price) : 0 ≤ markPrice quotes p := by
  cases hqq : qlookup quotes p.symbol with
  | none => rw [markPrice_none hqq]; exact hlb
  | some md =>
    rw [markPrice_some hqq]
    by_cases h0 : md.price = 0
    · rw [if_pos h0]; exact hlb
    · rw [if_neg h0]; exact le_of_lt (qlookup_pos hq hqq)

lemma marketValue_nonneg {quotes : Quotes} {ps : List Position}
    (hq : QuotesOk quotes)
    (h : ∀ p ∈ ps, 0 ≤ p.shares ∧ 0 ≤ p.last_buy_price) :
    0 ≤ marketValue quotes ps := by
  unfold marketValue
  apply List.sum_nonneg
  intro x hx
  obtain ⟨p, hp, hpx⟩ := List.mem_map.mp hx
  rw [← hpx]
  exact mul_nonneg (h p hp).1 (markPrice_nonneg hq (h p hp).2)

/-! Preservation of well-formedness and of equity by the symbol loop. -/

lemma stepSymbol_cash_nonneg {decide : Decide} {dd : ℚ} {now : ℕ}
    {quotes : Quotes} {st : LoopState} {symbol : String}
    (hq : QuotesOk quotes) (hc : 0 ≤ st.cash) :
    0 ≤ (stepSymbol decide dd now quotes st symbol).cash := by
  cases hqq : qlookup quotes symbol with
  | none => simp only [stepSymbol, hqq]; exact hc
  | some md =>
    cases hd : decide md.price md.changePercent (findPos st.posMap symbol)
        st.cash dd with
    | none => simp only [stepSymbol, hqq, hd]; exact hc
    | some req =>
      cases hex : executeTrade req.action req.amountUSD md.price
          (posShares (findPos st.posMap symbol))
          (posAvg (findPos st.posMap symbol)) st.cash with
      | none => simp only [stepSymbol, hqq, hd, hex]; exact hc
      | some rw0 =>
        obtain ⟨r, w⟩ := rw0
        simp only [stepSymbol, hqq, hd, hex]
        exact exec_cash_nonneg (qlookup_pos hq hqq) hc hex

lemma stepSymbol_posOk_equity {decide : Decide} {dd : ℚ} {now : ℕ}
    {quotes : Quotes} {st : LoopState} {symbol : String}
    (hq : QuotesOk quotes) (hps : PosOk st.posMap) :
    PosOk (stepSymbol decide dd now quotes st symbol).posMap ∧
      (stepSymbol decide dd now quotes st symbol).cash +
          marketValue quotes (stepSymbol decide dd now quotes st symbol).posMap
        = st.cash + marketValue quotes st.posMap := by
  cases hqq : qlookup quotes symbol with
  | none => simp only [stepSymbol, hqq]; exact ⟨hps, by simp⟩
  | some md =>
    cases hd : decide md.price md.changePercent (findPos st.posMap symbol)
        st.cash dd with
    | none => simp only [stepSymbol, hqq, hd]; exact ⟨hps, by simp⟩
    | some req =>
      cases hex : executeTrade req.action req.amountUSD md.price
          (posShares (findPos st.posMap symbol))
          (posAvg (findPos st.posMap symbol)) st.cash with
      | none => simp only [stepSymbol, hqq, hd, hex]; exact ⟨hps, by simp⟩
      | some rw0 =>
        obtain ⟨r, w⟩ := rw0
        simp only [stepSymbol, hqq, hd, hex]
        have hmdpos : 0 < md.price := qlookup_pos hq hqq
        have hsh : 0 ≤ posShares (findPos st.posMap symbol) := by
          unfold posShares
          cases hfp : findPos st.posMap symbol with
          | none => exact le_refl 0
          | some old => exact (hps.1 old (findPos_mem hfp)).1
        have hcons := exec_conserve (ne_of_gt hmdpos) hex
        by_cases hpos : 0 < r.newShares
        · simp only [if_pos hpos]
          have hlbn : 0 ≤ (if posShares (findPos st.posMap symbol) < r.newShares
              then md.price else posLast (findPos st.posMap symbol)) := by
            by_cases hib : posShares (findPos st.posMap symbol) < r.newShares
            · rw [if_pos hib]; exact le_of_lt hmdpos
            · rw [if_neg hib]
              unfold posLast
              cases hfp : findPos st.posMap symbol with
              | none => exact le_refl 0
              | some old => exact (hps.1 old (findPos_mem hfp)).2
          constructor
          · constructor
            · intro t ht
              rcases mem_setPos ht with hteq | htm
              · subst hteq
                exact ⟨le_of_lt hpos, hlbn⟩
              · exact hps.1 t htm
            · exact setPos_nodup hps.2
          · have hmkn : markPrice quotes
                (⟨symbol, r.newShares,
                  if posShares (findPos st.posMap symbol) < r.newShares then
                    md.price
                  else posLast (findPos st.posMap symbol),
                  r.newAvgPrice, now⟩ : Position) = md.price :=
              markPrice_of_quote hqq (ne_of_gt hmdpos)
            cases hfp : findPos st.posMap symbol with
            | none =>
              rw [hfp] at hmkn
              have hsz : posShares (findPos st.posMap symbol) = 0 := by
                rw [hfp]; rfl
              rw [hsz] at hcons
              unfold marketValue
              rw [sum_setPos_notfound hfp
                (fun p => p.shares * markPrice quotes p)]
              simp only [hmkn]
              linarith
            | some old =>
              rw [hfp] at hmkn
              have holdsym : old.symbol = symbol := findPos_symbol hfp
              have hsz : posShares (findPos st.posMap symbol) = old.shares := by
                rw [hfp]; rfl
              rw [hsz] at hcons
              have hmko : markPrice quotes old = md.price :=
                markPrice_of_quote (holdsym ▸ hqq) (ne_of_gt hmdpos)
              unfold marketValue
              rw [sum_setPos_found hps.2 hfp
                (fun p => p.shares * markPrice quotes p)]
              simp only [hmkn, hmko]
              linarith
        · simp only [if_neg hpos]
          have hzero : r.newShares = 0 := by
            cases hact : req.action with
            | buy =>
              exact absurd (exec_buy_shares_pos hmdpos hsh (hact ▸ hex)) hpos
            | sell =>
              exact le_antisymm (le_of_not_lt hpos)
                (exec_sell_shares_nonneg (hact ▸ hex))
            | sellAll =>
              exact (exec_sellAll_eq (hact ▸ hex)).2.2.1
          rw [hzero] at hcons
          constructor
          · constructor
            · intro t ht
              exact hps.1 t (mem_delPos ht)
            · exact delPos_nodup hps.2
          · cases hfp : findPos st.posMap symbol with
            | none =>
              have hsz : posShares (findPos st.posMap symbol) = 0 := by
                rw [hfp]; rfl
              rw [hsz] at hcons
              rw [delPos_of_notfound hfp]
              linarith
            | some old =>
              have holdsym : old.symbol = symbol := findPos_symbol hfp
              have hsz : posShares (findPos st.posMap symbol) = old.shares := by
                rw [hfp]; rfl
              rw [hsz] at hcons
              have hmko : markPrice quotes old = md.price :=
                markPrice_of_quote (holdsym ▸ hqq) (ne_of_gt hmdpos)
              unfold marketValue
              rw [sum_delPos_found hps.2 hfp
                (fun p => p.shares * markPrice quotes p)]
              simp only [hmko]
              linarith

lemma runSymbols_nil {decide : Decide} {dd : ℚ} {now : ℕ} {quotes : Quotes}
    {st : LoopState} : runSymbols decide dd now quotes [] st = st := rfl

lemma runSymbols_cons {decide : Decide} {dd : ℚ} {now : ℕ} {quotes : Quotes}
    {st : LoopState} {sym : String} {rest : List String} :
    runSymbols decide dd now quotes (sym :: rest) st
      = runSymbols decide dd now quotes rest
          (stepSymbol decide dd now quotes st sym) := rfl

lemma runSymbols_cash_nonneg {decide : Decide} {dd : ℚ} {now : ℕ}
    {quotes : Quotes} (symbols : List String) {st : LoopState}
    (hq : QuotesOk quotes) (hc : 0 ≤ st.cash) :
    0 ≤ (runSymbols decide dd now quotes symbols st).cash := by
  induction symbols generalizing st with
  | nil => exact hc
  | cons sym rest ih =>
    exact ih (stepSymbol_cash_nonneg hq hc)

lemma runSymbols_posOk_equity {decide : Decide} {dd : ℚ} {now : ℕ}
    {quotes : Quotes} (symbols : List String) {st : LoopState}
    (hq : QuotesOk quotes) (hps : PosOk st.posMap) :
    PosOk (runSymbols decide dd now quotes symbols st).posMap ∧
      (runSymbols decide dd now quotes symbols st).cash +
          marketValue quotes (runSymbols decide dd now quotes symbols st).posMap
        = st.cash + marketValue quotes st.posMap := by
  induction symbols generalizing st with
  | nil => exact ⟨hps, rfl⟩
  | cons sym rest ih =>
    obtain ⟨h1, h2⟩ := @stepSymbol_posOk_equity decide dd now quotes st sym
      hq hps
    obtain ⟨h3, h4⟩ := ih h1
    exact ⟨h3, by rw [runSymbols_cons, h4, h2]⟩

lemma stepSymbol_trades {decide : Decide} {dd : ℚ} {now : ℕ}
    {quotes : Quotes} {st : LoopState} {symbol : String} {t : TradeLog}
    (ht : t ∈ (stepSymbol decide dd now quotes st symbol).trades) :
    t ∈ st.trades ∨
      ∃ price changePercent pos cash req,
        decide price changePercent pos cash dd = some req ∧
          t.action = req.action := by
  revert ht
  cases hqq : qlookup quotes symbol with
  | none => simp only [stepSymbol, hqq]; exact Or.inl
  | some md =>
    cases hd : decide md.price md.changePercent (findPos st.posMap symbol)
        st.cash dd with
    | none => simp only [stepSymbol, hqq, hd]; exact Or.inl
    | some req =>
      cases hex : executeTrade req.action req.amountUSD md.price
          (posShares (findPos st.posMap symbol))
          (posAvg (findPos st.posMap symbol)) st.cash with
      | none => simp only [stepSymbol, hqq, hd, hex]; exact Or.inl
      | some rw0 =>
        obtain ⟨r, w⟩ := rw0
        simp only [stepSymbol, hqq, hd, hex]
        intro ht
        rcases List.mem_append.mp ht with hmem | hmem
        · exact Or.inl hmem
        · right
          refine ⟨md.price, md.changePercent, findPos st.posMap symbol,
            st.cash, req, hd, ?_⟩
          rw [List.mem_singleton.mp hmem]

lemma runSymbols_trades {decide : Decide} {dd : ℚ} {now : ℕ}
    {quotes : Quotes} (symbols : List String) {st : LoopState} {t : TradeLog}
    (ht : t ∈ (runSymbols decide dd now quotes symbols st).trades) :
    t ∈ st.trades ∨
      ∃ price changePercent pos cash req,
        decide price changePercent pos cash dd = some req ∧
          t.action = req.action := by
  induction symbols generalizing st with
  | nil => exact Or.inl ht
  | cons sym rest ih =>
    rcases ih ht with hmem | hdec
    · exact stepSymbol_trades hmem
    · exact Or.inr hdec

lemma findPos_map_replace {ps : List Position} {p q : Position}
    (ex : findPos ps p.symbol = some q) :
    findPos (ps.map (fun t => if t.symbol = p.symbol then p else t)) p.symbol
      = some p := by
  induction ps with
  | nil => exact absurd ex (by simp [findPos])
  | cons hd tl ih =>
    unfold findPos at ex ⊢
    by_cases hh : hd.symbol = p.symbol
    · rw [List.map_cons, if_pos hh]
      exact List.find?_cons_of_pos _ (by simp)
    · rw [List.map_cons, if_neg hh,
        List.find?_cons_of_neg _ (by simpa using hh)]
      rw [List.find?_cons_of_neg _ (by simpa using hh)] at ex
      exact ih ex

lemma findPos_append_single {ps : List Position} {p : Position}
    (hf : findPos ps p.symbol = none) :
    findPos (ps ++ [p]) p.symbol = some p := by
  induction ps with
  | nil =>
    unfold findPos
    exact List.find?_cons_of_pos _ (by simp)
  | cons hd tl ih =>
    unfold findPos at hf ⊢
    by_cases hh : hd.symbol = p.symbol
    · rw [List.find?_cons_of_pos _ (by simpa using hh)] at hf
      exact Option.noConfusion hf
    · rw [List.find?_cons_of_neg _ (by simpa using hh)] at hf
      rw [List.cons_append, List.find?_cons_of_neg _ (by simpa using hh)]
      exact ih hf

lemma findPos_setPos (ps : List Position) (p : Position) :
    findPos (setPos ps p) p.symbol = some p := by
  cases hf : findPos ps p.symbol with
  | none => rw [setPos_of_notfound hf]; exact findPos_append_single hf
  | some q => rw [setPos_of_found hf]; exact findPos_map_replace hf

/-! Cycle-level lemmas. -/

lemma cycle_unfold (decide : Decide) (now : ℕ) (quotes : Quotes)
    (symbols : List String) (pf : Portfolio) (ps : List Position) :
    runInvestorCycle decide now quotes symbols pf ps =
      { portfolio :=
          ⟨(runSymbols decide (cycleDrawdown quotes pf ps) now quotes symbols
              ⟨pf.cash_balance, ps, [], []⟩).cash,
            (runSymbols decide (cycleDrawdown quotes pf ps) now quotes symbols
              ⟨pf.cash_balance, ps, [], []⟩).cash +
              marketValue quotes
                (runSymbols decide (cycleDrawdown quotes pf ps) now quotes
                  symbols ⟨pf.cash_balance, ps, [], []⟩).posMap,
            persistedPeak quotes pf ps⟩
        positions := (runSymbols decide (cycleDrawdown quotes pf ps) now quotes
          symbols ⟨pf.cash_balance, ps, [], []⟩).posMap
        trades := (runSymbols decide (cycleDrawdown quotes pf ps) now quotes
          symbols ⟨pf.cash_balance, ps, [], []⟩).trades
        snapshot :=
          ⟨(runSymbols decide (cycleDrawdown quotes pf ps) now quotes symbols
              ⟨pf.cash_balance, ps, [], []⟩).cash +
              marketValue quotes
                (runSymbols decide (cycleDrawdown quotes pf ps) now quotes
                  symbols ⟨pf.cash_balance, ps, [], []⟩).posMap,
            (runSymbols decide (cycleDrawdown quotes pf ps) now quotes symbols
              ⟨pf.cash_balance, ps, [], []⟩).cash⟩ } := rfl

lemma cyclePeak_eq_max (quotes : Quotes) (pf : Portfolio) (ps : List Position) :
    cyclePeak quotes pf ps = max (loadedPeak pf) (preEquity quotes pf ps) := by
  unfold cyclePeak
  by_cases h : loadedPeak pf < preEquity quotes pf ps
  · rw [if_pos h, max_eq_right (le_of_lt h)]
  · rw [if_neg h, max_eq_left (le_of_not_lt h)]

lemma cycle_total_eq_pre {decide : Decide} {now : ℕ} {quotes : Quotes}
    {symbols : List String} {pf : Portfolio} {ps : List Position}
    (hq : QuotesOk quotes) (hps : PosOk ps) :
    (runInvestorCycle decide now quotes symbols pf ps).portfolio.total_equity
      = preEquity quotes pf ps := by
  rw [cycle_unfold]
  exact (runSymbols_posOk_equity symbols hq hps).2

lemma cycle_inv {decide : Decide} {now : ℕ} {quotes : Quotes}
    {symbols : List String} {pf : Portfolio} {ps : List Position}
    (hq : QuotesOk quotes) (hps : PosOk ps) (hpf : PortfolioOk pf) :
    PortfolioOk (runInvestorCycle decide now quotes symbols pf ps).portfolio ∧
      PosOk (runInvestorCycle decide now quotes symbols pf ps).positions ∧
      pf.peak_equity ≤
        (runInvestorCycle decide now quotes symbols pf ps).portfolio.peak_equity
      := by
  obtain ⟨hc0, ht0, hp0⟩ := hpf
  have hcash : 0 ≤ (runSymbols decide (cycleDrawdown quotes pf ps) now quotes
      symbols ⟨pf.cash_balance, ps, [], []⟩).cash :=
    runSymbols_cash_nonneg symbols hq hc0
  obtain ⟨hposOk, hequity⟩ := @runSymbols_posOk_equity decide
    (cycleDrawdown quotes pf ps) now quotes symbols
    ⟨pf.cash_balance, ps, [], []⟩ hq hps
  have hpre0 : 0 ≤ preEquity quotes pf ps :=
    add_nonneg hc0 (marketValue_nonneg hq hps.1)
  have hloaded : pf.peak_equity ≤ loadedPeak pf := by
    unfold loadedPeak
    by_cases h0 : pf.peak_equity = 0
    · rw [if_pos h0, h0]; exact ht0
    · rw [if_neg h0]
  have hpeak : pf.peak_equity ≤ persistedPeak quotes pf ps := by
    unfold persistedPeak
    by_cases h : loadedPeak pf < preEquity quotes pf ps
    · rw [if_pos h]
      exact le_of_lt (lt_of_le_of_lt hloaded h)
    · rw [if_neg h]
  refine ⟨⟨?_, ?_, ?_⟩, ?_, ?_⟩
  · rw [cycle_unfold]; exact hcash
  · rw [cycle_unfold]
    exact hequity ▸ hpre0
  · rw [cycle_unfold]
    exact le_trans hp0 hpeak
  · rw [cycle_unfold]; exact hposOk
  · rw [cycle_unfold]; exact hpeak

lemma runCycles_inv (symbols : List String) (steps : List CycleIn)
    (s : Portfolio × List Position)
    (hq : ∀ c ∈ steps, QuotesOk c.quotes)
    (hpf : PortfolioOk s.1) (hps : PosOk s.2) :
    PortfolioOk (runCycles symbols steps s).1 ∧
      PosOk (runCycles symbols steps s).2 ∧
      s.1.peak_equity ≤ (runCycles symbols steps s).1.peak_equity := by
  induction steps generalizing s with
  | nil => exact ⟨hpf, hps, le_refl _⟩
  | cons c rest ih =>
    have hqc : QuotesOk c.quotes := hq c (List.mem_cons_self c rest)
    obtain ⟨h1, h2, h3⟩ := @cycle_inv c.decide c.now c.quotes symbols
      s.1 s.2 hqc hps hpf
    obtain ⟨h4, h5, h6⟩ := ih
      ((runInvestorCycle c.decide c.now c.quotes symbols s.1 s.2).portfolio,
        (runInvestorCycle c.decide c.now c.quotes symbols s.1 s.2).positions)
      (fun d hd => hq d (List.mem_cons_of_mem c hd)) h1 h2
    exact ⟨h4, h5, le_trans h3 h6⟩

/-! Concrete evaluation facts used to discharge witness hypotheses; the
rational arithmetic operations do not reduce definitionally, so these are
established by norm_num. -/

lemma eval_eps_lt_1000 : (1 / 10000 : ℚ) < 1000 := by norm_num

lemma marketValue_eq_spec {quotes : Quotes} (hq : QuotesOk quotes)
    (ps : List Position) :
    marketValue quotes ps
      = (ps.map (fun p => p.shares * specMarkPrice quotes p)).sum := by
  unfold marketValue
  have h : ps.map (fun p => p.shares * markPrice quotes p)
      = ps.map (fun p => p.shares * specMarkPrice quotes p) :=
    List.map_congr_left (fun p _ => by rw [markPrice_eq_spec hq])
  rw [h]

lemma eval_buy_1000_at_100 :
    executeTrade .buy (1000 * 100) 100 0 0 1000000 =
      some (⟨900000, 1000, 100⟩, .upsert 1000 100 100) := by
  norm_num [executeTrade]

lemma eval_buy_500_at_80 :
    executeTrade .buy (500 * 80) 80 1000 100 900000 =
      some (⟨860000, 1500, 280 / 3⟩, .upsert 1500 (280 / 3) 80) := by
  norm_num [executeTrade]

/-! Claim theorems. -/

/-- C1: starting from cash_balance at least 0, no sequence of executed
trades drives cash_balance below 0. A BUY whose amountUSD exceeds the
current cash returns null and writes no state, and the whole symbol loop
of runTradingBot, for every decision function and every quote batch with
positive prices, keeps the running cash nonnegative. -/
theorem C1_cash_nonnegativity :
    (∀ amountUSD price currentShares currentAvgPrice currentCash : ℚ,
        currentCash < amountUSD →
        executeTrade .buy amountUSD price currentShares currentAvgPrice
          currentCash = none) ∧
    (∀ (decide : Decide) (dd : ℚ) (now : ℕ) (quotes : Quotes)
        (symbols : List String) (st : LoopState),
        QuotesOk quotes → 0 ≤ st.cash →
        0 ≤ (runSymbols decide dd now quotes symbols st).cash) := by
  constructor
  · exact exec_buy_rejected
  · intro decide dd now quotes symbols st hq hc
    exact runSymbols_cash_nonneg symbols hq hc

/-- Witness for C1 at concrete inputs: a 10 dollar BUY with 5 dollars of
cash is rejected, and a concrete one-symbol loop ends with nonnegative
cash. -/
theorem C1_cash_nonnegativity_witness :
    executeTrade .buy 10 100 0 0 5 = none ∧
      0 ≤ (runSymbols (fun _ _ _ _ _ => some ⟨.buy, 50⟩) 0 0
        [("QQQ", ⟨100, 0⟩)] ["QQQ"] ⟨100, [], [], []⟩).cash :=
  ⟨C1_cash_nonnegativity.1 10 100 0 0 5 (by decide),
    C1_cash_nonnegativity.2 (fun _ _ _ _ _ => some ⟨.buy, 50⟩) 0 0
      [("QQQ", ⟨100, 0⟩)] ["QQQ"] ⟨100, [], [], []⟩ (by decide) (by decide)⟩

/-- C2 as stated is false on the code: when a trade leaves the position
with at most 0.0001 shares, executeTrade zeroes avg_price instead of
applying the weighted-average rule. Here a SELL of 0.0001 shares out of
0.0002 held (strictly less than the held quantity) changes avg_price
from 50 to 0. -/
theorem C2_counterexample :
    executeTrade .sell 1 10000 (2 / 10000) 50 0 =
      some (⟨1, 1 / 10000, 0⟩, .upsert (1 / 10000) 0 10000) ∧
      (2 / 10000 : ℚ) - 1 / 10000 < 2 / 10000 ∧ (0 : ℚ) ≠ 50 := by
  refine ⟨?_, by norm_num, by norm_num⟩
  norm_num [executeTrade, show (TradeAction.sell = TradeAction.buy) = False
    by simp]

/-- C2 amended: the weighted-average rule holds for every executed BUY
whose resulting share count exceeds the 0.0001 epsilon, a position built
from two BUYs of (q1, p1) then (q2, p2) has avg_price equal to
(q1 p1 + q2 p2) / (q1 + q2) provided q1 exceeds the epsilon, and an
executed SELL leaving strictly more than the epsilon of shares keeps
avg_price unchanged. -/
theorem C2_average_cost :
    (∀ amt price s a cash : ℚ, ∀ r : TradeResult, ∀ w : PosWrite, 0 < price →
        executeTrade .buy amt price s a cash = some (r, w) →
        1 / 10000 < r.newShares →
        r.newAvgPrice = (s * a + amt) / r.newShares) ∧
    (∀ q1 p1 q2 p2 cash : ℚ, ∀ r1 r2 : TradeResult, ∀ w1 w2 : PosWrite,
        0 < p1 → 0 < p2 → 1 / 10000 < q1 → 0 < q2 →
        executeTrade .buy (q1 * p1) p1 0 0 cash = some (r1, w1) →
        executeTrade .buy (q2 * p2) p2 r1.newShares r1.newAvgPrice r1.newCash
          = some (r2, w2) →
        r2.newAvgPrice = (q1 * p1 + q2 * p2) / (q1 + q2)) ∧
    (∀ amt price s a cash : ℚ, ∀ r : TradeResult, ∀ w : PosWrite,
        executeTrade .sell amt price s a cash = some (r, w) →
        1 / 10000 < r.newShares → r.newAvgPrice = a) := by
  refine ⟨?_, ?_, ?_⟩
  · intro amt price s a cash r w hp h hbig
    exact exec_avg_buy (ne_of_gt hp) h hbig
  · intro q1 p1 q2 p2 cash r1 r2 w1 w2 hp1 hp2 hq1 hq2 h1 h2
    have hq1pos : 0 < q1 := lt_trans (by norm_num) hq1
    have hshare1 : r1.newShares = q1 := by
      obtain ⟨-, -, -, hsh, -⟩ := exec_buy_eq (ne_of_gt hp1) h1
      rw [hsh, zero_add, mul_div_cancel_right₀ q1 (ne_of_gt hp1)]
    have havg1 : r1.newAvgPrice = p1 := by
      rw [exec_avg_buy (ne_of_gt hp1) h1 (hshare1 ▸ hq1), hshare1]
      rw [zero_mul, zero_add, mul_div_cancel_left₀ p1 (ne_of_gt hq1pos)]
    have hshare2 : r2.newShares = q1 + q2 := by
      obtain ⟨-, -, -, hsh, -⟩ := exec_buy_eq (ne_of_gt hp2) h2
      rw [hsh, hshare1, mul_div_cancel_right₀ q2 (ne_of_gt hp2)]
    have hbig2 : 1 / 10000 < r2.newShares := by
      rw [hshare2]
      linarith
    rw [exec_avg_buy (ne_of_gt hp2) h2 hbig2, hshare1, havg1, hshare2]
  · intro amt price s a cash r w h hbig
    exact exec_avg_sell h hbig

/-- Witness for C2 at concrete inputs: a 1000-share BUY at 100 followed by
a 500-share BUY at 80 yields the weighted average cost. -/
theorem C2_average_cost_witness :
    (TradeResult.mk 860000 1500 (280 / 3)).newAvgPrice =
      ((1000 : ℚ) * 100 + 500 * 80) / (1000 + 500) :=
  C2_average_cost.2.1 1000 100 500 80 1000000 ⟨900000, 1000, 100⟩
    ⟨860000, 1500, 280 / 3⟩ (.upsert 1000 100 100) (.upsert 1500 (280 / 3) 80)
    (by decide) (by decide) eval_eps_lt_1000 (by decide)
    eval_buy_1000_at_100 eval_buy_500_at_80

/-- C3: the total_equity written at settlement equals the written
cash_balance plus, over every held position, shares times the mark price,
where the mark price is the current cycle quote for the instrument and
falls back to the position own last trade price when there is no quote. -/
theorem C3_settlement_equity :
    ∀ (decide : Decide) (now : ℕ) (quotes : Quotes) (symbols : List String)
      (pf : Portfolio) (ps : List Position), QuotesOk quotes →
      (runInvestorCycle decide now quotes symbols pf ps).portfolio.total_equity
        = (runInvestorCycle decide now quotes symbols pf ps).portfolio.cash_balance
          + ((runInvestorCycle decide now quotes symbols pf ps).positions.map
              (fun p => p.shares * specMarkPrice quotes p)).sum := by
  intro decide now quotes symbols pf ps hq
  exact congrArg _ (marketValue_eq_spec hq
    (runSymbols decide (cycleDrawdown quotes pf ps) now quotes symbols
      ⟨pf.cash_balance, ps, [], []⟩).posMap)

/-- Witness for C3 at concrete inputs: one investor, one symbol with a
quote and one position without, settled against the spec mark price. -/
theorem C3_settlement_equity_witness :
    (runInvestorCycle (fun _ _ _ _ _ => some ⟨.buy, 40⟩) 7
        [("QQQ", ⟨100, 0⟩)] ["QQQ"] ⟨1000, 1000, 1000⟩
        [⟨"GLD", 2, 50, 40, 0⟩]).portfolio.total_equity
      = (runInvestorCycle (fun _ _ _ _ _ => some ⟨.buy, 40⟩) 7
          [("QQQ", ⟨100, 0⟩)] ["QQQ"] ⟨1000, 1000, 1000⟩
          [⟨"GLD", 2, 50, 40, 0⟩]).portfolio.cash_balance
        + ((runInvestorCycle (fun _ _ _ _ _ => some ⟨.buy, 40⟩) 7
            [("QQQ", ⟨100, 0⟩)] ["QQQ"] ⟨1000, 1000, 1000⟩
            [⟨"GLD", 2, 50, 40, 0⟩]).positions.map
            (fun p => p.shares * specMarkPrice [("QQQ", ⟨100, 0⟩)] p)).sum :=
  C3_settlement_equity (fun _ _ _ _ _ => some ⟨.buy, 40⟩) 7
    [("QQQ", ⟨100, 0⟩)] ["QQQ"] ⟨1000, 1000, 1000⟩
    [⟨"GLD", 2, 50, 40, 0⟩] (by decide)

lemma eval_sellAll_1000_at_100 :
    executeTrade .sellAll 0 100 1000 100 0 =
      some (⟨100000, 0, 0⟩, .delete) := by
  norm_num [executeTrade,
    show (TradeAction.sellAll = TradeAction.buy) = False by simp]

lemma eval_sell_5_at_100 :
    executeTrade .sell 500 100 10 50 0 =
      some (⟨500, 5, 50⟩, .upsert 5 50 100) := by
  norm_num [executeTrade,
    show (TradeAction.sell = TradeAction.buy) = False by simp]

/-- C5 as stated is false on the code: the positions row is deleted only
when the new share count is exactly 0, not whenever it is at or below the
1e-4 epsilon; the epsilon branch only zeroes avg_price. Here an executed
SELL leaves exactly 0.0001 shares, at the epsilon, and the row is upserted
rather than deleted. -/
theorem C5_counterexample :
    executeTrade .sell 1 10000 (2 / 10000) 50 0 =
      some (⟨1, 1 / 10000, 0⟩, .upsert (1 / 10000) 0 10000) ∧
      (1 / 10000 : ℚ) ≤ 1 / 10000 := by
  refine ⟨?_, le_refl _⟩
  norm_num [executeTrade,
    show (TradeAction.sell = TradeAction.buy) = False by simp]

/-- C5 amended: selling all held shares (SELL_ALL) leaves exactly 0 shares
and deletes the Position row; in general the row is deleted precisely when
the resulting share count is 0 (a residual at or below the 1e-4 epsilon is
kept, with only avg_price zeroed); and the next BUY from an empty position
recreates the row with avg_price equal to that trade price, provided the
bought quantity exceeds the epsilon. -/
theorem C5_position_cleanup :
    (∀ amt price s a cash : ℚ, ∀ r : TradeResult, ∀ w : PosWrite,
        executeTrade .sellAll amt price s a cash = some (r, w) →
        r.newShares = 0 ∧ w = PosWrite.delete) ∧
    (∀ (act : TradeAction), ∀ amt price s a cash : ℚ, ∀ r : TradeResult,
        ∀ w : PosWrite, executeTrade act amt price s a cash = some (r, w) →
        (w = PosWrite.delete ↔ r.newShares = 0)) ∧
    (∀ amt price a cash : ℚ, ∀ r : TradeResult, ∀ w : PosWrite, 0 < price →
        executeTrade .buy amt price 0 a cash = some (r, w) →
        1 / 10000 < r.newShares → r.newAvgPrice = price) := by
  refine ⟨?_, ?_, ?_⟩
  · intro amt price s a cash r w h
    obtain ⟨-, -, h0, hw⟩ := exec_sellAll_eq h
    exact ⟨h0, hw⟩
  · intro act amt price s a cash r w h
    exact exec_delete_iff h
  · intro amt price a cash r w hp h hbig
    have havg := exec_avg_buy (ne_of_gt hp) h hbig
    obtain ⟨h1, -, -, hsh, -⟩ := exec_buy_eq (ne_of_gt hp) h
    have hamt : amt ≠ 0 := ne_of_gt (lt_of_lt_of_le zero_lt_one h1)
    rw [havg, zero_mul, zero_add, hsh, zero_add, div_div_eq_mul_div,
      mul_comm, mul_div_assoc, div_self hamt, mul_one]

/-- Witness for C5 at concrete inputs: SELL_ALL of 1000 shares deletes the
row, and a fresh BUY of 1000 shares at 100 recreates avg_price 100. -/
theorem C5_position_cleanup_witness :
    ((TradeResult.mk 100000 0 0).newShares = 0 ∧
        (PosWrite.delete : PosWrite) = PosWrite.delete) ∧
      (TradeResult.mk 900000 1000 100).newAvgPrice = 100 :=
  ⟨C5_position_cleanup.1 0 100 1000 100 0 ⟨100000, 0, 0⟩ .delete
      eval_sellAll_1000_at_100,
    C5_position_cleanup.2.2 (1000 * 100) 100 0 1000000 ⟨900000, 1000, 100⟩
      (.upsert 1000 100 100) (by decide) eval_buy_1000_at_100
      eval_eps_lt_1000⟩

/-- C7: every Position keeps shares at least 0. An executed SELL trades at
most the held quantity (the remaining share count never goes negative),
SELL_ALL sells exactly the held quantity, a SELL or SELL_ALL issued with 0
held shares is rejected as a no-op, and every position left by an investor
cycle has nonnegative shares. -/
theorem C7_shares_nonnegative :
    (∀ amt price s a cash : ℚ, ∀ r : TradeResult, ∀ w : PosWrite,
        executeTrade .sell amt price s a cash = some (r, w) →
        0 ≤ r.newShares ∧ s - r.newShares ≤ s) ∧
    (∀ amt price s a cash : ℚ, ∀ r : TradeResult, ∀ w : PosWrite,
        executeTrade .sellAll amt price s a cash = some (r, w) →
        s - r.newShares = s) ∧
    (∀ amt price a cash : ℚ, 0 < price →
        executeTrade .sell amt price 0 a cash = none ∧
        executeTrade .sellAll amt price 0 a cash = none) ∧
    (∀ (decide : Decide) (now : ℕ) (quotes : Quotes) (symbols : List String)
        (pf : Portfolio) (ps : List Position), QuotesOk quotes → PosOk ps →
        ∀ p ∈ (runInvestorCycle decide now quotes symbols pf ps).positions,
          0 ≤ p.shares) := by
  refine ⟨?_, ?_, ?_, ?_⟩
  · intro amt price s a cash r w h
    have hnn := exec_sell_shares_nonneg h
    exact ⟨hnn, sub_le_self s hnn⟩
  · intro amt price s a cash r w h
    rw [(exec_sellAll_eq h).2.2.1, sub_zero]
  · intro amt price a cash hp
    exact ⟨exec_sell_zero_held amt price a cash hp,
      exec_sellAll_zero_held amt price a cash⟩
  · intro decide now quotes symbols pf ps hq hps p hp
    rw [cycle_unfold] at hp
    exact ((runSymbols_posOk_equity symbols hq hps).1.1 p hp).1

/-- Witness for C7 at concrete inputs: a SELL of 5 out of 10 shares leaves
5, and SELLs with nothing held are rejected. -/
theorem C7_shares_nonnegative_witness :
    (0 ≤ (TradeResult.mk 500 5 50).newShares ∧
        (10 : ℚ) - (TradeResult.mk 500 5 50).newShares ≤ 10) ∧
      (1000 : ℚ) - (TradeResult.mk 100000 0 0).newShares = 1000 ∧
      (executeTrade .sell 77 100 0 0 0 = none ∧
        executeTrade .sellAll 77 100 0 0 0 = none) ∧
      ∀ p ∈ (runInvestorCycle (fun _ _ _ _ _ => none) 3 [("QQQ", ⟨100, 0⟩)]
          ["QQQ"] ⟨1000, 1000, 1000⟩ [⟨"GLD", 2, 50, 40, 0⟩]).positions,
        0 ≤ p.shares :=
  ⟨C7_shares_nonnegative.1 500 100 10 50 0 ⟨500, 5, 50⟩ (.upsert 5 50 100)
      eval_sell_5_at_100,
    C7_shares_nonnegative.2.1 0 100 1000 100 0 ⟨100000, 0, 0⟩ .delete
      eval_sellAll_1000_at_100,
    C7_shares_nonnegative.2.2.1 77 100 0 0 (by decide),
    C7_shares_nonnegative.2.2.2 (fun _ _ _ _ _ => none) 3 [("QQQ", ⟨100, 0⟩)]
      ["QQQ"] ⟨1000, 1000, 1000⟩ [⟨"GLD", 2, 50, 40, 0⟩] (by decide)
      (by decide)⟩

lemma persistedPeak_eq_max {quotes : Quotes} {pf : Portfolio}
    {ps : List Position} (hpk : pf.peak_equity ≠ 0) :
    persistedPeak quotes pf ps
      = max pf.peak_equity (preEquity quotes pf ps) := by
  unfold persistedPeak loadedPeak
  rw [if_neg hpk]
  by_cases h : pf.peak_equity < preEquity quotes pf ps
  · rw [if_pos h, max_eq_right (le_of_lt h)]
  · rw [if_neg h, max_eq_left (le_of_not_lt h)]

/-- C6 as stated is false on the code: peak_equity is written to the store
only when the pre-trade equity exceeds the loaded peak (engine.ts lines
191-194), and the settlement update (lines 338-342) does not touch it. For
a legacy row whose stored peak_equity is the falsy 0 — exactly the case
the double-pipe fallback to total_equity exists for — a cycle whose equity
stays below that fallback leaves the stored peak at 0 under a positive
total_equity, so after settlement peak_equity is neither the maximum of
itself and the fresh total_equity nor at least total_equity. -/
theorem C6_counterexample :
    (runInvestorCycle (fun _ _ _ _ _ => none) 3 [("QQQ", ⟨100, 0⟩)] ["QQQ"]
        ⟨800000, 900000, 0⟩ []).portfolio.peak_equity = 0 ∧
      (runInvestorCycle (fun _ _ _ _ _ => none) 3 [("QQQ", ⟨100, 0⟩)] ["QQQ"]
        ⟨800000, 900000, 0⟩ []).portfolio.total_equity = 800000 ∧
      (0 : ℚ) < 800000 := by
  refine ⟨?_, ?_, by norm_num⟩ <;>
    norm_num [runInvestorCycle, runSymbols, stepSymbol, persistedPeak,
      loadedPeak, preEquity, marketValue, cycleDrawdown, cyclePeak, qlookup,
      findPos]

/-- C6 amended: peak_equity never decreases across any sequence of cycles
from a well-formed state, and whenever the stored peak_equity is positive
(as for every account the engine initializes, which seeds it at 1000000)
the cycle persists peak_equity as the maximum of itself and the freshly
computed total_equity, so peak_equity is at least total_equity after
settlement; a stored peak of 0 is only rewritten once equity exceeds the
in-memory fallback peak. -/
theorem C6_peak_monotonicity :
    (∀ (decide : Decide) (now : ℕ) (quotes : Quotes) (symbols : List String)
        (pf : Portfolio) (ps : List Position), QuotesOk quotes → PosOk ps →
        0 < pf.peak_equity →
        (runInvestorCycle decide now quotes symbols pf ps).portfolio.peak_equity
          = max pf.peak_equity
              (runInvestorCycle decide now quotes symbols
                pf ps).portfolio.total_equity ∧
          (runInvestorCycle decide now quotes symbols
              pf ps).portfolio.total_equity
            ≤ (runInvestorCycle decide now quotes symbols
                pf ps).portfolio.peak_equity) ∧
    (∀ (symbols : List String) (steps : List CycleIn)
        (s : Portfolio × List Position),
        (∀ c ∈ steps, QuotesOk c.quotes) → PortfolioOk s.1 → PosOk s.2 →
        s.1.peak_equity ≤ (runCycles symbols steps s).1.peak_equity) := by
  constructor
  · intro decide now quotes symbols pf ps hq hps hpk
    have hpeak : (runInvestorCycle decide now quotes symbols
        pf ps).portfolio.peak_equity = persistedPeak quotes pf ps := rfl
    have htot := @cycle_total_eq_pre decide now quotes symbols pf ps hq hps
    constructor
    · rw [hpeak, htot, persistedPeak_eq_max (ne_of_gt hpk)]
    · rw [hpeak, htot, persistedPeak_eq_max (ne_of_gt hpk)]
      exact le_max_right _ _
  · intro symbols steps s hq hpf hps
    exact (runCycles_inv symbols steps s hq hpf hps).2.2

/-- Witness for C6 at concrete inputs: a one-symbol cycle from a concrete
portfolio with positive stored peak, and a one-cycle sequence. -/
theorem C6_peak_monotonicity_witness :
    ((runInvestorCycle (fun _ _ _ _ _ => none) 3 [("QQQ", ⟨100, 0⟩)] ["QQQ"]
          ⟨1000, 1000, 1200⟩ [⟨"GLD", 2, 50, 40, 0⟩]).portfolio.peak_equity
        = max (⟨1000, 1000, 1200⟩ : Portfolio).peak_equity
            (runInvestorCycle (fun _ _ _ _ _ => none) 3 [("QQQ", ⟨100, 0⟩)]
              ["QQQ"] ⟨1000, 1000, 1200⟩
              [⟨"GLD", 2, 50, 40, 0⟩]).portfolio.total_equity ∧
        (runInvestorCycle (fun _ _ _ _ _ => none) 3 [("QQQ", ⟨100, 0⟩)]
            ["QQQ"] ⟨1000, 1000, 1200⟩
            [⟨"GLD", 2, 50, 40, 0⟩]).portfolio.total_equity
          ≤ (runInvestorCycle (fun _ _ _ _ _ => none) 3 [("QQQ", ⟨100, 0⟩)]
              ["QQQ"] ⟨1000, 1000, 1200⟩
              [⟨"GLD", 2, 50, 40, 0⟩]).portfolio.peak_equity) ∧
      (⟨1000, 1000, 1200⟩ : Portfolio).peak_equity ≤
        (runCycles ["QQQ"] [⟨fun _ _ _ _ _ => none, 3, [("QQQ", ⟨100, 0⟩)]⟩]
          (⟨1000, 1000, 1200⟩, [])).1.peak_equity :=
  ⟨C6_peak_monotonicity.1 (fun _ _ _ _ _ => none) 3 [("QQQ", ⟨100, 0⟩)]
      ["QQQ"] ⟨1000, 1000, 1200⟩ [⟨"GLD", 2, 50, 40, 0⟩] (by decide)
      (by decide) (by decide),
    C6_peak_monotonicity.2 ["QQQ"]
      [⟨fun _ _ _ _ _ => none, 3, [("QQQ", ⟨100, 0⟩)]⟩]
      (⟨1000, 1000, 1200⟩, []) (by decide) (by decide) (by decide)⟩

lemma soldier_no_buy {price changePercent : ℚ} {pos : Option Position}
    {cash dd : ℚ} {req : TradeReq} (hdd : 1 / 10 < dd)
    (h : soldierDecide price changePercent pos cash dd = some req) :
    req.action = .sell := by
  simp only [soldierDecide] at h
  rw [if_pos hdd] at h
  split at h
  · rw [← Option.some.inj h]
  · exact absurd h (by simp)

lemma eval_tenth_lt_fifth : (1 / 10 : ℚ) < 1 / 5 := by norm_num

lemma eval_soldier_retreat :
    soldierDecide 103 0 (some ⟨"QQQ", 10, 100, 100, 0⟩) 0 (1 / 5)
      = some ⟨.sell, 10 * 103 * (2 / 10)⟩ := by
  norm_num [soldierDecide]

lemma eval_drawdown_fifth :
    cycleDrawdown [("QQQ", ⟨100, 0⟩)] ⟨800000, 800000, 1000000⟩ [] = 1 / 5 := by
  norm_num [cycleDrawdown, cyclePeak, preEquity, loadedPeak, marketValue]

/-- C8: once the drawdown fraction computed for a cycle exceeds the 10
percent threshold, the soldier persona never initiates a BUY: any request
it makes is a SELL, and every trade executed in the cycle run with the
soldier branch is a SELL. -/
theorem C8_drawdown_gate :
    (∀ (price changePercent : ℚ) (pos : Option Position) (cash dd : ℚ)
        (req : TradeReq), 1 / 10 < dd →
        soldierDecide price changePercent pos cash dd = some req →
        req.action = .sell) ∧
    (∀ (now : ℕ) (quotes : Quotes) (symbols : List String) (pf : Portfolio)
        (ps : List Position), 1 / 10 < cycleDrawdown quotes pf ps →
        ∀ t ∈ (runInvestorCycle soldierDecide now quotes symbols
            pf ps).trades, t.action = .sell) := by
  constructor
  · intro price changePercent pos cash dd req hdd h
    exact soldier_no_buy hdd h
  · intro now quotes symbols pf ps hdd t ht
    rw [cycle_unfold] at ht
    rcases runSymbols_trades symbols ht with hmem | hdec
    · exact absurd hmem (List.not_mem_nil t)
    · obtain ⟨price, cp, pos, cash, req, hreq, hact⟩ := hdec
      rw [hact]
      exact soldier_no_buy hdd hreq

/-- Witness for C8 at concrete inputs: at 20 percent drawdown the soldier
request above the retreat threshold is a SELL, and a concrete cycle at 20
percent drawdown contains only SELL trades. -/
theorem C8_drawdown_gate_witness :
    (TradeReq.mk .sell (10 * 103 * (2 / 10))).action = .sell ∧
      ∀ t ∈ (runInvestorCycle soldierDecide 3 [("QQQ", ⟨100, 0⟩)] ["QQQ"]
          ⟨800000, 800000, 1000000⟩ []).trades, t.action = .sell :=
  ⟨C8_drawdown_gate.1 103 0 (some ⟨"QQQ", 10, 100, 100, 0⟩) 0 (1 / 5)
      ⟨.sell, 10 * 103 * (2 / 10)⟩ eval_tenth_lt_fifth eval_soldier_retreat,
    C8_drawdown_gate.2 3 [("QQQ", ⟨100, 0⟩)] ["QQQ"] ⟨800000, 800000, 1000000⟩
      [] (lt_of_lt_of_eq eval_tenth_lt_fifth eval_drawdown_fifth.symm)⟩

/-- C9: when at least one quote parsed, the cycle runs settlement for every
investor whatever the trade decisions were (including when every trade is
rejected): it persists one updated portfolio row and appends exactly one
equity snapshot per investor, the snapshot mirroring the persisted cash
and equity. -/
theorem C9_settlement_every_cycle :
    ∀ (now : ℕ) (quotes : Quotes) (symbols : List String)
      (investors : List Investor), quotes ≠ [] →
      (runTradingBot now quotes symbols investors).length = investors.length ∧
        (runTradingBot now quotes symbols investors).map (fun e => e.1)
          = investors.map (fun inv => inv.id) ∧
        ∀ e ∈ runTradingBot now quotes symbols investors,
          e.2.2.total_equity = e.2.1.total_equity ∧
            e.2.2.cash_balance = e.2.1.cash_balance := by
  intro now quotes symbols investors hne
  unfold runTradingBot
  rw [if_neg hne]
  refine ⟨List.length_map _ _, ?_, ?_⟩
  · rw [List.map_map]
    rfl
  · intro e he
    obtain ⟨inv, hinv, heq⟩ := List.mem_map.mp he
    rw [← heq]
    exact ⟨rfl, rfl⟩

/-- Witness for C9 at concrete inputs: an investor whose every decision is
an unaffordable BUY (so the executor rejects every trade) still settles
and produces exactly one snapshot. -/
theorem C9_settlement_every_cycle_witness :
    (runTradingBot 3 [("QQQ", ⟨100, 0⟩)] ["QQQ"]
        [⟨"leek", fun _ _ _ _ _ => some ⟨.buy, 999999999⟩,
          ⟨100, 100, 100⟩, []⟩]).length = 1 ∧
      (runTradingBot 3 [("QQQ", ⟨100, 0⟩)] ["QQQ"]
          [⟨"leek", fun _ _ _ _ _ => some ⟨.buy, 999999999⟩,
            ⟨100, 100, 100⟩, []⟩]).map (fun e => e.1) = ["leek"] ∧
      ∀ e ∈ runTradingBot 3 [("QQQ", ⟨100, 0⟩)] ["QQQ"]
          [⟨"leek", fun _ _ _ _ _ => some ⟨.buy, 999999999⟩,
            ⟨100, 100, 100⟩, []⟩],
        e.2.2.total_equity = e.2.1.total_equity ∧
          e.2.2.cash_balance = e.2.1.cash_balance :=
  C9_settlement_every_cycle 3 [("QQQ", ⟨100, 0⟩)] ["QQQ"]
    [⟨"leek", fun _ _ _ _ _ => some ⟨.buy, 999999999⟩, ⟨100, 100, 100⟩, []⟩]
    (by decide)

/-- C4 as stated is false on the code: the daily throttle is derived from
the updated_at of the position row, so a trade that deletes the row (a
sell-out) resets it. Concretely, on day 5 the leek persona first dumps its
whole position (executed, row deleted) and the very next cycle of the same
day re-enters with a BUY (executed again): two executed trades for the
same (investor, instrument) pair on the same calendar day. -/
theorem C4_counterexample :
    (StratEngine.leekStep 5 94 (-(6 / 100))
        (StratEngine.leekStep 5 94 (-(6 / 100))
          ⟨0, some ⟨2000, 100, 100, 100, 4⟩, []⟩)).execDays = [5, 5] := by
  norm_num [StratEngine.leekStep, StratEngine.leekStrategy,
    StratEngine.executeUpdate]

/-- C4 amended: while a Position row for the pair exists whose updated_at
is today, the strategy returns HOLD and the engine executes nothing (state
unchanged); and a decision on the next calendar day is executed again. The
throttle is only as strong as the row: deleting the position resets it. -/
theorem C4_daily_throttle :
    (∀ (today : ℕ) (price changePercent : ℚ) (st : StratEngine.SState)
        (p : StratEngine.PositionS), st.pos = some p →
        p.updated_at = today →
        StratEngine.leekStep today price changePercent st = st) ∧
    (∀ (d : ℕ) (price changePercent : ℚ) (st : StratEngine.SState)
        (p : StratEngine.PositionS), st.pos = some p → p.updated_at = d →
        0 < p.shares → changePercent < -(5 / 100) →
        (StratEngine.leekStep (d + 1) price changePercent st).execDays
          = st.execDays ++ [d + 1]) := by
  constructor
  · intro today price cp st p hpos hupd
    simp [StratEngine.leekStep, StratEngine.leekStrategy, hpos, hupd]
  · intro d price cp st p hpos hupd hsh hcp
    have h2 : ¬ (2 / 100 < cp ∧ 50000 ≤ st.cash) := by
      rintro ⟨h2a, -⟩
      linarith
    have hne : ¬ p.shares = 0 := ne_of_gt hsh
    simp [StratEngine.leekStep, StratEngine.leekStrategy, hpos, hupd, h2,
      hcp, hne, min_self, hsh]

lemma eval_neg6_lt_neg5 : (-(6 / 100) : ℚ) < -(5 / 100) := by norm_num

/-- Witness for C4 at concrete inputs: with the position updated today the
step is a no-op, and on the next day the dump decision executes. -/
theorem C4_daily_throttle_witness :
    StratEngine.leekStep 5 94 (-(6 / 100))
        ⟨0, some ⟨2000, 100, 100, 100, 5⟩, []⟩
      = ⟨0, some ⟨2000, 100, 100, 100, 5⟩, []⟩ ∧
      (StratEngine.leekStep 5 94 (-(6 / 100))
          ⟨0, some ⟨2000, 100, 100, 100, 4⟩, []⟩).execDays = [5] :=
  ⟨C4_daily_throttle.1 5 94 (-(6 / 100))
      ⟨0, some ⟨2000, 100, 100, 100, 5⟩, []⟩ ⟨2000, 100, 100, 100, 5⟩
      rfl rfl,
    C4_daily_throttle.2 4 94 (-(6 / 100))
      ⟨0, some ⟨2000, 100, 100, 100, 4⟩, []⟩ ⟨2000, 100, 100, 100, 4⟩
      rfl rfl (by decide) eval_neg6_lt_neg5⟩

lemma eval_sell_c10 :
    executeTrade .sell 515 103
        (posShares (findPos [⟨"QQQ", 10, 100, 50, 0⟩] "QQQ"))
        (posAvg (findPos [⟨"QQQ", 10, 100, 50, 0⟩] "QQQ")) 0
      = some (⟨515, 5, 50⟩, .upsert 5 50 103) := by
  norm_num [executeTrade, findPos, posShares, posAvg,
    show (TradeAction.sell = TradeAction.buy) = False by simp]

/-- C10: when a partial SELL executes (remaining shares positive), the
position row persisted by executeTrade carries last_buy_price overwritten
with the SELL execution price, while the in-memory posMap entry kept by
runTradingBot for the rest of the cycle retains the previous buy price, so
the persisted and in-memory reference prices diverge whenever the two
prices differ. -/
theorem C10_sell_reference_divergence :
    ∀ (decide : Decide) (dd : ℚ) (now : ℕ) (quotes : Quotes) (st : LoopState)
      (symbol : String) (md : MarketData) (old : Position) (amt : ℚ)
      (r : TradeResult) (w : PosWrite),
      0 < md.price →
      qlookup quotes symbol = some md →
      findPos st.posMap symbol = some old →
      decide md.price md.changePercent (findPos st.posMap symbol) st.cash dd
        = some ⟨.sell, amt⟩ →
      executeTrade .sell amt md.price (posShares (findPos st.posMap symbol))
        (posAvg (findPos st.posMap symbol)) st.cash = some (r, w) →
      0 < r.newShares →
      w = PosWrite.upsert r.newShares r.newAvgPrice md.price ∧
        findPos (stepSymbol decide dd now quotes st symbol).posMap symbol
          = some ⟨symbol, r.newShares, old.last_buy_price, r.newAvgPrice,
              now⟩ ∧
        (md.price ≠ old.last_buy_price →
          ¬ w = PosWrite.upsert r.newShares r.newAvgPrice
              old.last_buy_price) := by
  intro decide dd now quotes st symbol md old amt r w hmd hqq hfp hd hex hpos
  have hw : w = PosWrite.upsert r.newShares r.newAvgPrice md.price :=
    exec_write_upsert hex (ne_of_gt hpos)
  have hts : 0 < min (amt / md.price) (posShares (findPos st.posMap symbol)) := by
    obtain ⟨h1, -⟩ := exec_sell_eq hex
    by_contra hc
    have : min (amt / md.price) (posShares (findPos st.posMap symbol))
        * md.price ≤ 0 :=
      mul_nonpos_iff.mpr (Or.inr ⟨le_of_not_lt hc, le_of_lt hmd⟩)
    linarith
  have hlt : r.newShares < posShares (findPos st.posMap symbol) := by
    obtain ⟨-, -, hsh, -⟩ := exec_sell_eq hex
    rw [hsh]
    linarith
  refine ⟨hw, ?_, ?_⟩
  · simp only [stepSymbol, hqq, hd, hex, if_pos hpos]
    rw [if_neg (not_lt_of_lt hlt), hfp]
    exact findPos_setPos st.posMap
      ⟨symbol, r.newShares, old.last_buy_price, r.newAvgPrice, now⟩
  · intro hne hcontra
    rw [hw] at hcontra
    exact hne (by injection hcontra)

/-- Witness for C10 at concrete inputs: a SELL of 5 out of 10 shares at
price 103 persists last_buy_price 103 while the in-memory entry keeps the
old buy price 100. -/
theorem C10_sell_reference_divergence_witness :
    PosWrite.upsert 5 50 103
        = PosWrite.upsert (TradeResult.mk 515 5 50).newShares
            (TradeResult.mk 515 5 50).newAvgPrice
            (MarketData.mk 103 0).price ∧
      findPos (stepSymbol (fun _ _ _ _ _ => some ⟨.sell, 515⟩) 0 7
          [("QQQ", ⟨103, 0⟩)] ⟨0, [⟨"QQQ", 10, 100, 50, 0⟩], [], []⟩
          "QQQ").posMap "QQQ"
        = some ⟨"QQQ", 5, 100, 50, 7⟩ ∧
      ((MarketData.mk 103 0).price ≠
          (Position.mk "QQQ" 10 100 50 0).last_buy_price →
        ¬ PosWrite.upsert 5 50 103
            = PosWrite.upsert (TradeResult.mk 515 5 50).newShares
                (TradeResult.mk 515 5 50).newAvgPrice
                (Position.mk "QQQ" 10 100 50 0).last_buy_price) :=
  C10_sell_reference_divergence (fun _ _ _ _ _ => some ⟨.sell, 515⟩) 0 7
    [("QQQ", ⟨103, 0⟩)] ⟨0, [⟨"QQQ", 10, 100, 50, 0⟩], [], []⟩ "QQQ"
    ⟨103, 0⟩ ⟨"QQQ", 10, 100, 50, 0⟩ 515 ⟨515, 5, 50⟩ (.upsert 5 50 103)
    (by decide) (by decide) (by decide) rfl eval_sell_c10 (by decide)

end QuantSim
